import Mathlib

/-!
Verification of the strided-array addressing model (`ArrayDim` in src/src/lib.rs) and the
Bruker fid acquisition-block decoder (`main` in src/src/bin/bruker-fid-to-cfl.rs).
Fixed-size Rust arrays are embedded as lists of length `N_DIMS`; fallible Rust code
(error returns, panics on `%`/`/` by zero and the fid-size `assert_eq!`) is embedded as
`Option`/`Except` results.
-/

namespace ArrayLib

/-- Fixed number of supported axes (mirrors `const N_DIMS: usize = 16` in src/src/lib.rs). -/
def N_DIMS : Nat := 16

/-- Strided array descriptor (mirrors `struct ArrayDim { shape: [usize; 16], strides: [usize; 16] }`
in src/src/lib.rs); the fixed-size arrays are embedded as lists, of length `N_DIMS` for every
descriptor made by the constructors below. -/
structure ArrayDim where
  shape : List Nat
  strides : List Nat
deriving DecidableEq

/-- Writes the entries of the second list over a prefix of the first, keeping the rest of the
first (mirrors the `for (d, s) in dims.iter_mut().zip(shape.iter())` loop of
`ArrayDim::from_shape`, and the zipped per-chunk sample writes of the fid decoder). -/
def overwrite {α : Type} : List α → List α → List α
  | base, [] => base
  | [], _ => []
  | _ :: bs, x :: xs => x :: overwrite bs xs

/-- Running-product loop of `ArrayDim::calc_strides`: writes `acc`, `acc*d0`, `acc*d0*d1`, ...
over a prefix of the stride slots, keeping the remaining slots. -/
def calcStridesAux : List Nat → List Nat → Nat → List Nat
  | [], ss, _ => ss
  | _ :: _, [], _ => []
  | d :: ds, _ :: ss, acc => acc :: calcStridesAux ds ss (acc * d)

/-- mirrors `ArrayDim::calc_strides(dims, strides)` (the running stride starts at 1). -/
def calc_strides (dims strides : List Nat) : List Nat :=
  calcStridesAux dims strides 1

/-- Pure column-major strides of a shape, scaled by `acc`: the closed form of the
`calc_strides` running product. -/
def stridesFrom (acc : Nat) : List Nat → List Nat
  | [] => []
  | d :: ds => acc :: stridesFrom (acc * d) ds

/-- mirrors `ArrayDim::new`. -/
def ArrayDim.new : ArrayDim :=
  { shape := List.replicate N_DIMS 1, strides := List.replicate N_DIMS 1 }

/-- mirrors `ArrayDim::from_shape`; note that the source passes the input slice `shape`, not
the padded 16-slot array, to `calc_strides`. -/
def ArrayDim.from_shape (shape : List Nat) : ArrayDim :=
  { shape := overwrite (List.replicate N_DIMS 1) shape
    strides := calc_strides shape (List.replicate N_DIMS 1) }

/-- mirrors `ArrayDim::numel`. -/
def ArrayDim.numel (a : ArrayDim) : Nat :=
  a.shape.prod

/-- mirrors `ArrayDim::with_dim` followed by `update_strides` (the `assert!(axis < N_DIMS)` is
not modelled: `List.set` leaves the descriptor unchanged for an out-of-range axis where the
source panics; every use below has `axis < N_DIMS`). -/
def ArrayDim.with_dim (a : ArrayDim) (axis dim : Nat) : ArrayDim :=
  { shape := a.shape.set axis dim
    strides := calc_strides (a.shape.set axis dim) a.strides }

/-- mirrors `impl From<[usize; 16]> for ArrayDim`: a fold of `with_dim` over the enumerated
shape entries, starting from `ArrayDim::new`. -/
def ArrayDim.from_array (shape : List Nat) : ArrayDim :=
  shape.enum.foldl (fun acc p => acc.with_dim p.1 p.2) ArrayDim.new

/-- Sum of pairwise products over the zip of two lists (mirrors the `offset += i * stride`
loop of `ArrayDim::calc_addr`). -/
def sumProds : List Nat → List Nat → Nat
  | i :: is, s :: ss => i * s + sumProds is ss
  | _, _ => 0

/-- mirrors `ArrayDim::calc_addr`. -/
def ArrayDim.calc_addr (a : ArrayDim) (idx : List Nat) : Nat :=
  sumProds idx a.strides

/-- Successive mod/div loop of `ArrayDim::calc_idx` (its `debug_assert!` is debug-only and
not modelled; `% 0` cannot arise from a valid offset, since a zero axis forces `numel = 0`). -/
def calcIdxAux : List Nat → Nat → List Nat
  | [], _ => []
  | d :: ds, addr => addr % d :: calcIdxAux ds (addr / d)

/-- mirrors `ArrayDim::calc_idx`. -/
def ArrayDim.calc_idx (a : ArrayDim) (addr : Nat) : List Nat :=
  calcIdxAux a.shape addr

/-- mirrors `Iterator::position`: index of the first element satisfying the predicate. -/
def positionOf (p : Nat → Bool) : List Nat → Option Nat
  | [] => none
  | x :: xs => if p x then some 0 else (positionOf p xs).map (· + 1)

/-- mirrors the body of `ArrayDim::shape_ns` on the stored shape:
`self.shape.iter().rev().position(|&dim| dim != 1)` selects the slice `&self.shape[..new_len]`
with `new_len = len - i`, and the all-singleton case yields `[1]`. -/
def trimTrailingOnes (l : List Nat) : List Nat :=
  match positionOf (fun d => d != 1) l.reverse with
  | some i => l.take (l.length - i)
  | none => [1]

/-- mirrors `ArrayDim::shape_ns`. -/
def ArrayDim.shape_ns (a : ArrayDim) : List Nat :=
  trimTrailingOnes a.shape

/-- Element-wise loop shared by the two coordinate shifts: the output is as long as the
shorter of the coordinate tuple and the shape; a zero axis size makes the source panic
(`%` and `/` by zero), embedded as `none`. -/
def shiftZip (f : Nat → Nat → Nat) : List Nat → List Nat → Option (List Nat)
  | [], _ => some []
  | _ :: _, [] => some []
  | i :: is, d :: ds =>
    if d = 0 then none
    else
      match shiftZip f is ds with
      | some rest => some (f i d :: rest)
      | none => none

/-- mirrors `ArrayDim::fft_shift_coords`: per axis `out[k] = (in[k] + d/2) % d`. -/
def ArrayDim.fft_shift_coords (a : ArrayDim) (input : List Nat) : Option (List Nat) :=
  shiftZip (fun i d => (i + d / 2) % d) input a.shape

/-- mirrors `ArrayDim::ifft_shift_coords`: per axis `out[k] = (in[k] + (d+1)/2) % d`. -/
def ArrayDim.ifft_shift_coords (a : ArrayDim) (input : List Nat) : Option (List Nat) :=
  shiftZip (fun i d => (i + (d + 1) / 2) % d) input a.shape

/-- Column-major stride invariant stated by the spec: `strides[0] = 1` and
`strides[k] = strides[k-1] * shape[k-1]` for every `1 ≤ k < 16`. -/
def colMajor (a : ArrayDim) : Prop :=
  a.strides.getD 0 0 = 1 ∧
  ∀ k, k < N_DIMS - 1 → a.strides.getD (k + 1) 0 = a.strides.getD k 0 * a.shape.getD k 0

/-- mirrors `const BLOCK_SIZE: usize = 1024` in src/src/bin/bruker-fid-to-cfl.rs. -/
def BLOCK_SIZE : Nat := 1024

/-- The modelled planning errors of `enum FidToCflError` (the remaining variants wrap
external parsing and io failures, outside the core). -/
inductive FidToCflError where
  | FieldNotFound (name : String)
  | UnexpectedDataType (value : String)
deriving DecidableEq

/-- Failure of the fid-size validation. The source enforces it with
`assert_eq!(fid_bytes.len(), expected_fid_file_size_bytes, ...)`, a panic whose message
carries both counts; the panic is embedded as this returned error value. -/
inductive DecodeError where
  | SizeMismatch (expected actual : Nat)
deriving DecidableEq

/-- Geometry derived in `main` of src/src/bin/bruker-fid-to-cfl.rs (lines 79-101). -/
structure FidGeometry where
  bytes_per_sample : Nat
  chunk_size_samples : Nat
  total_samples : Nat
  n_chunks : Nat
  samples_per_block : Nat
  blocks_per_chunk : Nat
  n_fid_samples : Nat
  expected_fid_file_size_bytes : Nat
deriving DecidableEq

/-- mirrors the geometry derivation of `main` (lines 79-101): the word-size match yields
8 bytes per complex sample for `"_32_BIT"` and `Err(UnexpectedDataType(word_size))` for
anything else, before any fid byte is consumed; `acq_size[0]` is embedded as
`acq_size.getD 0 0` (the source would panic on an empty `ACQ_size`, which no claim
exercises); all divisions are integer divisions as in the source. -/
def plan_geometry (acq_size : List Nat) (receivers n_echoes n_repeats oversampling_factor : Nat)
    (word_size : String) : Except FidToCflError FidGeometry :=
  if word_size = "_32_BIT" then
    let bytes_per_sample := 8
    let chunk_size_samples := acq_size.getD 0 0 / oversampling_factor * receivers * n_echoes
    let total_samples := chunk_size_samples * (acq_size.drop 1).prod * n_repeats
    let n_chunks := total_samples / chunk_size_samples
    let samples_per_block := BLOCK_SIZE / bytes_per_sample
    let blocks_per_chunk := (chunk_size_samples * bytes_per_sample + BLOCK_SIZE - 1) / BLOCK_SIZE
    Except.ok
      { bytes_per_sample := bytes_per_sample
        chunk_size_samples := chunk_size_samples
        total_samples := total_samples
        n_chunks := n_chunks
        samples_per_block := samples_per_block
        blocks_per_chunk := blocks_per_chunk
        n_fid_samples := n_chunks * blocks_per_chunk * samples_per_block
        expected_fid_file_size_bytes := n_chunks * blocks_per_chunk * BLOCK_SIZE }
  else
    Except.error (FidToCflError.UnexpectedDataType word_size)

/-- Little-endian reassembly of one `i32` from four bytes: the source reinterprets the byte
slice with `bytemuck::cast_slice::<u8, i32>`, which on the targeted little-endian hardware
is exactly the little-endian reading the spec states. -/
def bytesToI32 (b0 b1 b2 b3 : Nat) : Int :=
  let u : Nat := b0 + 2 ^ 8 * b1 + 2 ^ 16 * b2 + 2 ^ 24 * b3
  if u < 2 ^ 31 then (u : Int) else (u : Int) - 2 ^ 32

/-- mirrors the `cast_slice::<u8, i32>` view: consecutive groups of four bytes become `i32`
values (an incomplete trailing group never arises: every region read has a length that is a
multiple of eight). -/
def leBytesToI32s : List Nat → List Int
  | b0 :: b1 :: b2 :: b3 :: rest => bytesToI32 b0 b1 b2 b3 :: leBytesToI32s rest
  | _ => []

/-- mirrors `y.chunks_exact(2)` zipped into `Complex32::new(i[0] as f32, i[1] as f32)`:
consecutive `(real, imag)` pairs in original order, kept as exact integers (`i32 as f32`
widens without scaling, exactly whenever the value fits the `f32` mantissa). -/
def i32PairsOf : List Int → List (Int × Int)
  | re :: im :: rest => (re, im) :: i32PairsOf rest
  | _ => []

/-- mirrors one iteration of the decode loop (lines 129-138): only the first
`bytes_per_chunk` bytes of the block-aligned region are read. -/
def decodeChunk (bytes_per_chunk : Nat) (chunk_bytes : List Nat) : List (Int × Int) :=
  i32PairsOf (leBytesToI32s (chunk_bytes.take bytes_per_chunk))

/-- mirrors `slice::chunks_exact(n)`: the maximal sequence of consecutive `n`-element
groups, with any shorter remainder dropped (`n = 0` yields `[]`; the source panics there,
which no claim exercises). -/
def chunksExact {α : Type} (n : Nat) (l : List α) : List (List α) :=
  if _h : 0 < n ∧ n ≤ l.length then
    l.take n :: chunksExact n (l.drop n)
  else []
termination_by l.length
decreasing_by
  simp only [List.length_drop]
  omega

/-- mirrors the fid decode of `main` (lines 119-138). The size validation (`assert_eq!`, a
panic in the source) is embedded as a `SizeMismatch` error value. On success the result
reconstructs `fid_data` (pre-filled with complex zero) after the zipped parallel per-chunk
writes: each data chunk paired with a byte region gets the region's decoded prefix written
over its leading entries, while unpaired data chunks and the `chunks_exact_mut` remainder
keep their zeros. -/
def decode_fid (g : FidGeometry) (fid_bytes : List Nat) : Except DecodeError (List (Int × Int)) :=
  if fid_bytes.length = g.expected_fid_file_size_bytes then
    let bytes_per_chunk := g.chunk_size_samples * g.bytes_per_sample
    let fid_data : List (Int × Int) := List.replicate g.total_samples (0, 0)
    let byteChunks := chunksExact (g.blocks_per_chunk * BLOCK_SIZE) fid_bytes
    let dataChunks := chunksExact g.chunk_size_samples fid_data
    let written := List.zipWith
      (fun region dst => overwrite dst (decodeChunk bytes_per_chunk region)) byteChunks dataChunks
    Except.ok (written.flatten ++
      (dataChunks.drop written.length).flatten ++
      fid_data.drop (dataChunks.length * g.chunk_size_samples))
  else
    Except.error (DecodeError.SizeMismatch g.expected_fid_file_size_bytes fid_bytes.length)

/-- C3: the worked geometry example: matrix `[64, 32]`, 2 receivers, 1 echo, 1 repetition,
oversampling factor 1, the 32-bit word encoding and 1024-byte blocks derive
`bytes_per_sample = 8`, `chunk_size_samples = 128`, `blocks_per_chunk = 1`,
`n_chunks = 32` and `expected_byte_length = 32768`. -/
theorem plan_geometry_example :
    plan_geometry [64, 32] 2 1 1 1 "_32_BIT" =
      Except.ok ⟨8, 128, 4096, 32, 128, 1, 4096, 32768⟩ := by
  rfl

/-- C6: any word-size value other than `"_32_BIT"` makes planning fail with the
word-size error (named `UnexpectedDataType` in the source enum) carrying the offending
value; planning never touches the raw buffer, so the failure precedes any byte read. -/
theorem plan_geometry_unsupported_word_size (acq_size : List Nat)
    (receivers n_echoes n_repeats oversampling_factor : Nat) (word_size : String)
    (h : word_size ≠ "_32_BIT") :
    plan_geometry acq_size receivers n_echoes n_repeats oversampling_factor word_size =
      Except.error (FidToCflError.UnexpectedDataType word_size) := by
  simp [plan_geometry, h]

/-- Witness for C6 at the concrete word size `"_16_BIT"`. -/
theorem plan_geometry_unsupported_word_size_w :
    plan_geometry [64, 32] 2 1 1 1 "_16_BIT" =
      Except.error (FidToCflError.UnexpectedDataType "_16_BIT") :=
  plan_geometry_unsupported_word_size [64, 32] 2 1 1 1 "_16_BIT" (by decide)

/-- C5 (evaluating the code at the failing input): with the derived example geometry, a
buffer one byte short of `expected_byte_length = 32768` fails the size validation with both
counts, and no output value exists. In the source this check is
`assert_eq!(fid_bytes.len(), expected_fid_file_size_bytes, ...)` — a process-aborting panic
rather than the returned error value the spec describes. -/
theorem decode_fid_size_mismatch :
    decode_fid ⟨8, 128, 4096, 32, 128, 1, 4096, 32768⟩ (List.replicate 32767 0) =
      Except.error (DecodeError.SizeMismatch 32768 32767) := by
  unfold decode_fid
  rw [List.length_replicate, if_neg (by omega : ¬ (32767 : Nat) = 32768)]

/-- C2 counterexample: `from_shape([2])` stores `strides = [1, 1, ...]`, but the pure
column-major function of its stored 16-slot shape `[2, 1, ...]` requires
`strides[1] = strides[0] * shape[0] = 2`: the source computes strides from the input slice,
so stride slots past the input length stay 1. -/
theorem from_shape_not_colMajor : ¬ colMajor (ArrayDim.from_shape [2]) := by
  unfold colMajor N_DIMS
  decide

/-- C10: a descriptor holding a zero-size axis inside the coordinate length drives both
shift operations into a remainder by zero (a panic in the source, `none` here), so neither
returns shifted coordinates. -/
theorem shift_coords_zero_axis_fails :
    (ArrayDim.from_shape [0]).fft_shift_coords [0] = none ∧
    (ArrayDim.from_shape [0]).ifft_shift_coords [0] = none := by
  constructor <;> rfl

/-- Closed form of `overwrite`: the written prefix followed by the untouched suffix. -/
theorem overwrite_eq {α : Type} (base xs : List α) :
    overwrite base xs = xs.take base.length ++ base.drop xs.length := by
  induction base generalizing xs with
  | nil => cases xs <;> simp [overwrite]
  | cons b bs ih =>
    cases xs with
    | nil => simp [overwrite]
    | cons x xs => simp [overwrite, ih]

/-- Closed form of the `calc_strides` loop: column-major strides over the written prefix,
untouched slots beyond the input shape. -/
theorem calcStridesAux_eq (ds : List Nat) :
    ∀ (ss : List Nat) (acc : Nat),
      calcStridesAux ds ss acc = stridesFrom acc (ds.take ss.length) ++ ss.drop ds.length := by
  induction ds with
  | nil => intro ss acc; simp [calcStridesAux, stridesFrom]
  | cons d ds ih =>
    intro ss acc
    cases ss with
    | nil => simp [calcStridesAux, stridesFrom]
    | cons s ss => simp [calcStridesAux, stridesFrom, ih]

theorem stridesFrom_length (ds : List Nat) : ∀ acc, (stridesFrom acc ds).length = ds.length := by
  induction ds with
  | nil => intro acc; rfl
  | cons d ds ih => intro acc; simp [stridesFrom, ih]

theorem calcIdxAux_length (ds : List Nat) : ∀ a, (calcIdxAux ds a).length = ds.length := by
  induction ds with
  | nil => intro a; rfl
  | cons d ds ih => intro a; simp [calcIdxAux, ih]

/-- The mod/div unravelling loop processes an appended radix list in two stages, the second
starting from the quotient by the first stage's total size. -/
theorem calcIdxAux_append (A B : List Nat) : ∀ a,
    calcIdxAux (A ++ B) a = calcIdxAux A a ++ calcIdxAux B (a / A.prod) := by
  induction A with
  | nil => intro a; simp [calcIdxAux]
  | cons d A ih => intro a; simp [calcIdxAux, ih, Nat.div_div_eq_div_mul]

theorem calcIdxAux_replicate_one (m : Nat) : ∀ a,
    calcIdxAux (List.replicate m 1) a = List.replicate m 0 := by
  induction m with
  | zero => intro a; rfl
  | succ m ih => intro a; simp [List.replicate_succ, calcIdxAux, ih, Nat.mod_one]

theorem sumProds_append (A : List Nat) : ∀ (C B D : List Nat), A.length = C.length →
    sumProds (A ++ B) (C ++ D) = sumProds A C + sumProds B D := by
  induction A with
  | nil =>
    intro C B D h
    cases C with
    | nil => simp [sumProds]
    | cons c cs => simp at h
  | cons x xs ih =>
    intro C B D h
    cases C with
    | nil => simp at h
    | cons c cs =>
      simp only [List.cons_append, sumProds, List.append_eq]
      rw [ih cs B D (by simpa using h)]
      omega

theorem sumProds_replicate_zero (m : Nat) : ∀ l : List Nat,
    sumProds (List.replicate m 0) l = 0 := by
  induction m with
  | zero => intro l; rfl
  | succ m ih =>
    intro l
    cases l with
    | nil => rfl
    | cons s ss => simp [List.replicate_succ, sumProds, ih]

/-- Mixed-radix reconstruction: for any offset below the total size, summing the unravelled
digits against the column-major strides (scaled by `acc`) recovers `acc` times the offset. -/
theorem sumProds_calcIdx (ds : List Nat) : ∀ (acc a : Nat), a < ds.prod →
    sumProds (calcIdxAux ds a) (stridesFrom acc ds) = acc * a := by
  induction ds with
  | nil =>
    intro acc a h
    simp only [List.prod_nil] at h
    interval_cases a
    rfl
  | cons d ds ih =>
    intro acc a h
    rw [List.prod_cons] at h
    have hd : 0 < d := by
      rcases Nat.eq_zero_or_pos d with h0 | h0
      · subst h0; omega
      · exact h0
    have hlt : a / d < ds.prod := by
      rw [Nat.div_lt_iff_lt_mul hd, Nat.mul_comm ds.prod d]
      exact h
    simp only [calcIdxAux, stridesFrom, sumProds]
    rw [ih (acc * d) (a / d) hlt]
    have hmd := Nat.mod_add_div a d
    calc a % d * acc + acc * d * (a / d) = acc * (a % d + d * (a / d)) := by ring
    _ = acc * a := by rw [hmd]

theorem drop_replicate {α : Type} (x : α) (m : Nat) : ∀ n,
    (List.replicate m x).drop n = List.replicate (m - n) x := by
  induction m with
  | zero => intro n; simp
  | succ m ih =>
    intro n
    cases n with
    | zero => rfl
    | succ n => simp [List.replicate_succ, ih n]

/-- The stored shape of `from_shape`: the first 16 input entries padded with singletons. -/
theorem from_shape_shape (s : List Nat) :
    (ArrayDim.from_shape s).shape = s.take N_DIMS ++ List.replicate (N_DIMS - s.length) 1 := by
  show overwrite (List.replicate N_DIMS 1) s = _
  rw [overwrite_eq, drop_replicate]
  simp

/-- The stored strides of `from_shape`: column-major over the first 16 input entries, then
slots left at 1 (the source passes the input slice, not the padded shape, to
`calc_strides`). -/
theorem from_shape_strides (s : List Nat) :
    (ArrayDim.from_shape s).strides =
      stridesFrom 1 (s.take N_DIMS) ++ List.replicate (N_DIMS - s.length) 1 := by
  show calc_strides s (List.replicate N_DIMS 1) = _
  rw [calc_strides, calcStridesAux_eq, drop_replicate]
  simp

theorem from_shape_shape_length (s : List Nat) :
    (ArrayDim.from_shape s).shape.length = N_DIMS := by
  rw [from_shape_shape]
  simp only [List.length_append, List.length_take, List.length_replicate]
  omega

theorem from_shape_numel (s : List Nat) :
    (ArrayDim.from_shape s).numel = (s.take N_DIMS).prod := by
  rw [ArrayDim.numel, from_shape_shape, List.prod_append, List.prod_replicate]
  simp

/-- C1: on every descriptor built from a shape, `calc_addr` inverts `calc_idx` at every
valid flat offset `o < numel`. -/
theorem calc_addr_calc_idx (s : List Nat) (o : Nat) (h : o < (ArrayDim.from_shape s).numel) :
    (ArrayDim.from_shape s).calc_addr ((ArrayDim.from_shape s).calc_idx o) = o := by
  rw [from_shape_numel] at h
  rw [ArrayDim.calc_addr, ArrayDim.calc_idx, from_shape_shape, from_shape_strides]
  rw [calcIdxAux_append, calcIdxAux_replicate_one]
  rw [sumProds_append _ _ _ _ (by rw [calcIdxAux_length, stridesFrom_length])]
  rw [sumProds_calcIdx _ 1 o h, sumProds_replicate_zero]
  omega

/-- Witness for C1 at the shape `[3, 4]` and offset `3` (the repository's `test3`). -/
theorem calc_addr_calc_idx_w :
    (ArrayDim.from_shape [3, 4]).calc_addr ((ArrayDim.from_shape [3, 4]).calc_idx 3) = 3 :=
  calc_addr_calc_idx [3, 4] 3 (by decide)

/-- Per-axis roundtrip of the two shifts: `d/2 + (d+1)/2 = d`, so the inverse shift undoes
the forward shift modulo the axis size. -/
theorem shift_roundtrip_elem (x d : Nat) (hx : x < d) :
    ((x + d / 2) % d + (d + 1) / 2) % d = x := by
  rw [Nat.mod_add_mod]
  have hsum : x + d / 2 + (d + 1) / 2 = x + d := by omega
  rw [hsum, Nat.add_mod_right, Nat.mod_eq_of_lt hx]

/-- The inverse shift loop undoes the forward shift loop on any in-range coordinate tuple not
longer than the radix list. -/
theorem shiftZip_roundtrip (c : List Nat) : ∀ ds : List Nat, c.length ≤ ds.length →
    (∀ k, k < c.length → c.getD k 0 < ds.getD k 0) →
    ∃ c2, shiftZip (fun i d => (i + d / 2) % d) c ds = some c2 ∧
      shiftZip (fun i d => (i + (d + 1) / 2) % d) c2 ds = some c := by
  induction c with
  | nil => intro ds _ _; exact ⟨[], rfl, rfl⟩
  | cons x xs ih =>
    intro ds hlen hin
    cases ds with
    | nil => simp at hlen
    | cons d ds =>
      have hx : x < d := by simpa using hin 0 (by simp)
      have hd : ¬ d = 0 := by omega
      obtain ⟨c2, h1, h2⟩ := ih ds (by simpa using hlen) (fun k hk => by
        simpa using hin (k + 1) (by simpa using Nat.succ_lt_succ hk))
      refine ⟨(x + d / 2) % d :: c2, ?_, ?_⟩
      · simp [shiftZip, hd, h1]
      · simp [shiftZip, hd, h2, shift_roundtrip_elem x d hx]

/-- C7: for every shape and every coordinate tuple in range for it (and no longer than the
16 axes), the forward fft shift succeeds and the inverse fft shift maps the result back to
the original coordinates. -/
theorem ifft_fft_shift_roundtrip (s c : List Nat) (hlen : c.length ≤ N_DIMS)
    (hin : ∀ k, k < c.length → c.getD k 0 < (ArrayDim.from_shape s).shape.getD k 0) :
    ∃ c2, (ArrayDim.from_shape s).fft_shift_coords c = some c2 ∧
      (ArrayDim.from_shape s).ifft_shift_coords c2 = some c := by
  have h16 := from_shape_shape_length s
  exact shiftZip_roundtrip c (ArrayDim.from_shape s).shape (h16 ▸ hlen) hin

/-- Witness for C7 at the shape `[6, 4, 5]` and the coordinates `[5, 3, 4]`. -/
theorem ifft_fft_shift_roundtrip_w :
    ∃ c2, (ArrayDim.from_shape [6, 4, 5]).fft_shift_coords [5, 3, 4] = some c2 ∧
      (ArrayDim.from_shape [6, 4, 5]).ifft_shift_coords c2 = some [5, 3, 4] :=
  ifft_fft_shift_roundtrip [6, 4, 5] [5, 3, 4] (by decide) (by decide)

theorem getD_replicate_of_lt {α : Type} (x d : α) (n : Nat) : ∀ i, i < n →
    (List.replicate n x).getD i d = x := by
  induction n with
  | zero => intro i hi; omega
  | succ n ih =>
    intro i hi
    cases i with
    | zero => rfl
    | succ i => simpa [List.replicate_succ] using ih i (by omega)

theorem stridesFrom_getD_zero (ds : List Nat) (acc : Nat) (h : ds ≠ []) :
    (stridesFrom acc ds).getD 0 0 = acc := by
  cases ds with
  | nil => exact absurd rfl h
  | cons d ds => rfl

/-- The column-major recurrence holds inside `stridesFrom`. -/
theorem stridesFrom_getD_succ (ds : List Nat) : ∀ (acc k : Nat), k + 1 < ds.length →
    (stridesFrom acc ds).getD (k + 1) 0 =
      (stridesFrom acc ds).getD k 0 * ds.getD k 0 := by
  induction ds with
  | nil => intro acc k h; simp at h
  | cons d ds ih =>
    intro acc k h
    cases k with
    | zero =>
      cases ds with
      | nil => simp at h
      | cons e es => simp [stridesFrom]
    | succ k =>
      simp only [stridesFrom, List.getD_cons_succ]
      exact ih (acc * d) k (by simpa using h)

/-- The strides recomputed by `with_dim` are purely column-major in the updated shape,
provided the descriptor carries the full 16 slots. -/
theorem with_dim_strides (a : ArrayDim) (axis dim : Nat)
    (hs : a.shape.length = N_DIMS) (ht : a.strides.length = N_DIMS) :
    (a.with_dim axis dim).strides = stridesFrom 1 (a.shape.set axis dim) := by
  show calc_strides (a.shape.set axis dim) a.strides = _
  rw [calc_strides, calcStridesAux_eq, ht, List.length_set, hs, List.take_of_length_le,
    List.drop_eq_nil_of_le] <;> simp [List.length_set, hs, ht]

theorem with_dim_colMajor (a : ArrayDim) (axis dim : Nat)
    (hs : a.shape.length = N_DIMS) (ht : a.strides.length = N_DIMS) :
    colMajor (a.with_dim axis dim) := by
  have hshape : (a.with_dim axis dim).shape = a.shape.set axis dim := rfl
  have hlen : (a.shape.set axis dim).length = N_DIMS := by simp [List.length_set, hs]
  constructor
  · rw [with_dim_strides a axis dim hs ht, stridesFrom_getD_zero]
    intro hnil
    rw [hnil] at hlen
    simp [N_DIMS] at hlen
  · intro k hk
    rw [hshape, with_dim_strides a axis dim hs ht, stridesFrom_getD_succ]
    rw [hlen]
    unfold N_DIMS at hk ⊢
    omega

theorem with_dim_lengths (a : ArrayDim) (axis dim : Nat)
    (hs : a.shape.length = N_DIMS) (ht : a.strides.length = N_DIMS) :
    (a.with_dim axis dim).shape.length = N_DIMS ∧
      (a.with_dim axis dim).strides.length = N_DIMS := by
  constructor
  · simp [ArrayDim.with_dim, List.length_set, hs]
  · rw [with_dim_strides a axis dim hs ht, stridesFrom_length]
    simp [List.length_set, hs]

/-- Any chain of `with_dim` updates starting from a full-slot column-major descriptor stays
column-major. -/
theorem foldl_with_dim_colMajor (l : List (Nat × Nat)) : ∀ a : ArrayDim,
    a.shape.length = N_DIMS → a.strides.length = N_DIMS → colMajor a →
    colMajor (l.foldl (fun acc p => acc.with_dim p.1 p.2) a) := by
  induction l with
  | nil => intro a _ _ hc; exact hc
  | cons p l ih =>
    intro a hs ht _
    have h1 := with_dim_lengths a p.1 p.2 hs ht
    exact ih _ h1.1 h1.2 (with_dim_colMajor a p.1 p.2 hs ht)

theorem new_colMajor : colMajor ArrayDim.new := by
  unfold colMajor N_DIMS
  decide

theorem new_lengths :
    ArrayDim.new.shape.length = N_DIMS ∧ ArrayDim.new.strides.length = N_DIMS := by
  constructor <;> rfl

/-- C2 (amended): `new`, `with_dim` on any full-slot descriptor and `From<[usize; 16]>`
always yield purely column-major strides across all 16 slots; `from_shape(s)` satisfies the
recurrence only on slots below `min(len(s), 16)`, with `strides[0] = 1` always and every
slot at index `len(s) <= k < 16` left at 1 rather than continuing the recurrence. -/
theorem strides_colMajor_amended :
    colMajor ArrayDim.new ∧
    (∀ (a : ArrayDim) (axis dim : Nat),
      a.shape.length = N_DIMS → a.strides.length = N_DIMS → colMajor (a.with_dim axis dim)) ∧
    (∀ s : List Nat, colMajor (ArrayDim.from_array s)) ∧
    (∀ s : List Nat,
      (ArrayDim.from_shape s).strides.getD 0 0 = 1 ∧
      (∀ k, k + 1 < min s.length N_DIMS →
        (ArrayDim.from_shape s).strides.getD (k + 1) 0 =
          (ArrayDim.from_shape s).strides.getD k 0 * (ArrayDim.from_shape s).shape.getD k 0) ∧
      (∀ k, s.length ≤ k → k < N_DIMS → (ArrayDim.from_shape s).strides.getD k 0 = 1)) := by
  refine ⟨new_colMajor, with_dim_colMajor, ?_, ?_⟩
  · intro s
    exact foldl_with_dim_colMajor s.enum ArrayDim.new new_lengths.1 new_lengths.2 new_colMajor
  · intro s
    have htl : (s.take N_DIMS).length = min s.length N_DIMS := by
      simp [List.length_take, Nat.min_comm]
    refine ⟨?_, ?_, ?_⟩
    · rw [from_shape_strides]
      cases s with
      | nil =>
        simp only [List.take_nil, stridesFrom, List.nil_append, List.length_nil, Nat.sub_zero]
        exact getD_replicate_of_lt 1 0 N_DIMS 0 (by unfold N_DIMS; omega)
      | cons x xs =>
        rw [List.getD_append]
        · rw [stridesFrom_getD_zero]
          simp [List.take, N_DIMS]
        · rw [stridesFrom_length, List.length_take]
          simp [N_DIMS]
    · intro k hk
      rw [from_shape_strides, from_shape_shape]
      rw [List.getD_append _ _ _ _ (by rw [stridesFrom_length]; omega),
        List.getD_append _ _ _ _ (by rw [stridesFrom_length]; omega),
        List.getD_append _ _ _ _ (by omega)]
      rw [stridesFrom_getD_succ _ 1 k (by omega)]
    · intro k h1 h2
      rw [from_shape_strides]
      rw [List.getD_append_right _ _ _ _ (by rw [stridesFrom_length]; omega)]
      rw [stridesFrom_length, htl]
      exact getD_replicate_of_lt 1 0 _ _ (by omega)

/-- Witness for the amended C2: a concrete `with_dim` update of `new` is column-major. -/
theorem strides_colMajor_amended_w : colMajor (ArrayDim.new.with_dim 0 5) :=
  strides_colMajor_amended.2.1 ArrayDim.new 0 5 (by decide) (by decide)

theorem positionOf_lt_length (p : Nat → Bool) : ∀ (l : List Nat) (i : Nat),
    positionOf p l = some i → i < l.length := by
  intro l
  induction l with
  | nil => intro i h; simp [positionOf] at h
  | cons x xs ih =>
    intro i h
    by_cases hp : p x
    · simp [positionOf, hp] at h
      simp only [List.length_cons]
      omega
    · simp only [positionOf, hp, if_false, Bool.false_eq_true, if_neg] at h
      rw [Option.map_eq_some'] at h
      obtain ⟨j, hj, hji⟩ := h
      have := ih j hj
      simp only [List.length_cons]
      omega

theorem positionOf_eq_none (p : Nat → Bool) : ∀ l : List Nat,
    positionOf p l = none → ∀ y ∈ l, p y = false := by
  intro l
  induction l with
  | nil => intro _ y hy; simp at hy
  | cons x xs ih =>
    intro h y hy
    by_cases hp : p x
    · simp [positionOf, hp] at h
    · rcases List.mem_cons.mp hy with rfl | hmem
      · simpa using hp
      · apply ih _ _ hmem
        simp only [positionOf, hp, if_false, Bool.false_eq_true, if_neg] at h
        exact Option.map_eq_none'.mp h

/-- What the trailing-singleton trimming computes: a nonempty prefix of the list whose
removed suffix is all ones, maximal in that the prefix ends in a non-one unless it is the
all-singleton fallback `[1]`. -/
theorem trimTrailingOnes_spec (l : List Nat) : l ≠ [] →
    trimTrailingOnes l ≠ [] ∧
    trimTrailingOnes l ++ List.replicate (l.length - (trimTrailingOnes l).length) 1 = l ∧
    (trimTrailingOnes l = [1] ∨ (trimTrailingOnes l).getLast? ≠ some 1) := by
  induction l using List.reverseRecOn with
  | nil => intro hl; exact absurd rfl hl
  | append_singleton xs x ih =>
    intro _
    have hrev : (xs ++ [x]).reverse = x :: xs.reverse := by simp
    by_cases hx : x = 1
    · subst hx
      have hp : (fun d => d != 1) 1 = false := by simp
      have hpos : positionOf (fun d => d != 1) ((xs ++ [1]).reverse) =
          (positionOf (fun d => d != 1) xs.reverse).map (· + 1) := by
        rw [hrev]
        simp [positionOf, hp]
      cases hcase : positionOf (fun d => d != 1) xs.reverse with
      | none =>
        have hpos2 : positionOf (fun d => d != 1) ((xs ++ [1]).reverse) = none := by
          rw [hpos, hcase]
          rfl
        have htrim : trimTrailingOnes (xs ++ [1]) = [1] := by
          unfold trimTrailingOnes
          rw [hpos2]
        have hones : ∀ y ∈ xs, y = 1 := by
          intro y hy
          have := positionOf_eq_none (fun d => d != 1) xs.reverse hcase y (by simpa using hy)
          simpa using this
        have hxs : xs = List.replicate xs.length 1 := List.eq_replicate_of_mem hones
        refine ⟨by simp [htrim], ?_, Or.inl htrim⟩
        rw [htrim]
        have hc : (xs ++ [1]).length - ([1] : List Nat).length = xs.length := by
          simp
        rw [hc]
        calc [1] ++ List.replicate xs.length 1 = List.replicate (xs.length + 1) 1 := by
              simp [List.replicate_succ]
        _ = List.replicate xs.length 1 ++ [1] := List.replicate_succ' xs.length (1 : Nat)
        _ = xs ++ [1] := by rw [← hxs]
      | some j =>
        have hjlt : j < xs.length := by
          have := positionOf_lt_length (fun d => d != 1) xs.reverse j hcase
          simpa using this
        have hxs_ne : xs ≠ [] := by
          intro hnil
          rw [hnil] at hjlt
          simp at hjlt
        have hpos2 : positionOf (fun d => d != 1) ((xs ++ [1]).reverse) = some (j + 1) := by
          rw [hpos, hcase]
          rfl
        have htake : (xs ++ [1]).length - (j + 1) = xs.length - j := by
          simp only [List.length_append, List.length_cons, List.length_nil]
          omega
        have htrim : trimTrailingOnes (xs ++ [1]) = trimTrailingOnes xs := by
          unfold trimTrailingOnes
          rw [hpos2, hcase]
          show List.take ((xs ++ [1]).length - (j + 1)) (xs ++ [1]) =
            List.take (xs.length - j) xs
          rw [htake, List.take_append_of_le_length (by omega)]
        obtain ⟨h1, h2, h3⟩ := ih hxs_ne
        have hlen_le : (trimTrailingOnes xs).length ≤ xs.length := by
          have := congrArg List.length h2
          simp only [List.length_append, List.length_replicate] at this
          omega
        refine ⟨by rw [htrim]; exact h1, ?_, by rw [htrim]; exact h3⟩
        rw [htrim]
        have hc : (xs ++ [1]).length - (trimTrailingOnes xs).length =
            (xs.length - (trimTrailingOnes xs).length) + 1 := by
          simp only [List.length_append, List.length_cons, List.length_nil]
          omega
        rw [hc]
        calc trimTrailingOnes xs ++
              List.replicate ((xs.length - (trimTrailingOnes xs).length) + 1) 1
            = trimTrailingOnes xs ++
              (List.replicate (xs.length - (trimTrailingOnes xs).length) 1 ++ [1]) := by
              simpa using congrArg (trimTrailingOnes xs ++ ·)
                (List.replicate_succ' (xs.length - (trimTrailingOnes xs).length) (1 : Nat))
        _ = (trimTrailingOnes xs ++
              List.replicate (xs.length - (trimTrailingOnes xs).length) 1) ++ [1] := by
              rw [List.append_assoc]
        _ = xs ++ [1] := by rw [h2]
    · have hp : (fun d => d != 1) x = true := by simpa using hx
      have hpos : positionOf (fun d => d != 1) ((xs ++ [x]).reverse) = some 0 := by
        rw [hrev]
        simp [positionOf, hp]
      have htrim : trimTrailingOnes (xs ++ [x]) = xs ++ [x] := by
        unfold trimTrailingOnes
        rw [hpos]
        simp
      refine ⟨by simp [htrim], ?_, Or.inr ?_⟩
      · rw [htrim]
        simp
      · rw [htrim, List.getLast?_concat]
        simpa using hx

/-- C8: `shape_ns` on any full-slot descriptor returns the stored shape with exactly its
trailing singleton axes removed and is never empty; an all-singleton shape trims to `[1]`
and has `numel = 1`. -/
theorem shape_ns_spec (a : ArrayDim) (hlen : a.shape.length = N_DIMS) :
    a.shape_ns ≠ [] ∧
    a.shape_ns ++ List.replicate (a.shape.length - a.shape_ns.length) 1 = a.shape ∧
    (a.shape_ns = [1] ∨ a.shape_ns.getLast? ≠ some 1) ∧
    (ArrayDim.from_shape (List.replicate N_DIMS 1)).shape_ns = [1] ∧
    (ArrayDim.from_shape (List.replicate N_DIMS 1)).numel = 1 := by
  have hne : a.shape ≠ [] := by
    intro h
    rw [h] at hlen
    simp [N_DIMS] at hlen
  have h := trimTrailingOnes_spec a.shape hne
  exact ⟨h.1, h.2.1, h.2.2, by unfold N_DIMS; decide, by unfold N_DIMS; decide⟩

/-- Witness for C8 at the descriptor of shape `[3, 4, 5, 1, 6]` (the repository's
`test_shape_ns`). -/
theorem shape_ns_spec_w : (ArrayDim.from_shape [3, 4, 5, 1, 6]).shape_ns ≠ [] :=
  (shape_ns_spec (ArrayDim.from_shape [3, 4, 5, 1, 6]) (by unfold N_DIMS; decide)).1

theorem overwrite_take {α : Type} (base : List α) : ∀ xs : List α,
    overwrite base (xs.take base.length) = overwrite base xs := by
  induction base with
  | nil => intro xs; cases xs <;> rfl
  | cons b bs ih =>
    intro xs
    cases xs with
    | nil => rfl
    | cons x xs => simp [overwrite, List.length_cons, List.take_succ_cons, ih]

theorem calcStridesAux_take (ss : List Nat) : ∀ (ds : List Nat) (acc : Nat),
    calcStridesAux (ds.take ss.length) ss acc = calcStridesAux ds ss acc := by
  induction ss with
  | nil => intro ds acc; cases ds <;> rfl
  | cons s0 ss ih =>
    intro ds acc
    cases ds with
    | nil => rfl
    | cons d ds => simp [calcStridesAux, List.length_cons, List.take_succ_cons, ih]

/-- C9: `from_shape` accepts every shape list with no failure path: entries past the 16
supported axes are ignored, axes missing from a shorter input default to size 1, and a zero
axis among the consumed entries is accepted and makes `numel = 0`. -/
theorem from_shape_total (s : List Nat) :
    ArrayDim.from_shape s = ArrayDim.from_shape (s.take N_DIMS) ∧
    (∀ k, s.length ≤ k → k < N_DIMS → (ArrayDim.from_shape s).shape.getD k 0 = 1) ∧
    (0 ∈ s.take N_DIMS → (ArrayDim.from_shape s).numel = 0) := by
  refine ⟨?_, ?_, ?_⟩
  · have h1 : overwrite (List.replicate N_DIMS 1) (s.take N_DIMS) =
        overwrite (List.replicate N_DIMS 1) s := by
      have := overwrite_take (List.replicate N_DIMS 1) s
      simpa using this
    have h2 : calc_strides (s.take N_DIMS) (List.replicate N_DIMS 1) =
        calc_strides s (List.replicate N_DIMS 1) := by
      rw [calc_strides, calc_strides]
      have := calcStridesAux_take (List.replicate N_DIMS 1) s 1
      simpa using this
    unfold ArrayDim.from_shape
    rw [h1, h2]
  · intro k h1 h2
    rw [from_shape_shape]
    rw [List.getD_append_right _ _ _ _ (by simp only [List.length_take]; omega)]
    apply getD_replicate_of_lt
    simp only [List.length_take]
    omega
  · intro h0
    rw [from_shape_numel]
    exact List.prod_eq_zero h0

/-- Witness for C9 at a 17-entry shape list containing a zero axis. -/
theorem from_shape_total_w :
    (ArrayDim.from_shape [3, 0, 5, 1, 1, 1, 1, 1, 1, 1, 1, 1, 1, 1, 1, 1, 9]).numel = 0 :=
  (from_shape_total [3, 0, 5, 1, 1, 1, 1, 1, 1, 1, 1, 1, 1, 1, 1, 1, 9]).2.2
    (by unfold N_DIMS; decide)

theorem leBytesToI32s_length : ∀ l : List Nat, (leBytesToI32s l).length = l.length / 4
  | [] => rfl
  | [_] => by simp [leBytesToI32s]
  | [_, _] => by simp [leBytesToI32s]
  | [_, _, _] => by simp [leBytesToI32s]
  | _ :: _ :: _ :: _ :: rest => by
    have ih := leBytesToI32s_length rest
    simp only [leBytesToI32s, List.length_cons]
    omega

theorem i32PairsOf_length : ∀ l : List Int, (i32PairsOf l).length = l.length / 2
  | [] => rfl
  | [_] => by simp [i32PairsOf]
  | _ :: _ :: rest => by
    have ih := i32PairsOf_length rest
    simp only [i32PairsOf, List.length_cons]
    omega

/-- A chunk holding at least `cs * 8` bytes decodes into exactly `cs` complex samples. -/
theorem decodeChunk_length (cs : Nat) (chunk : List Nat) (h : cs * 8 ≤ chunk.length) :
    (decodeChunk (cs * 8) chunk).length = cs := by
  rw [decodeChunk, i32PairsOf_length, leBytesToI32s_length, List.length_take]
  omega

theorem chunksExact_nil {α : Type} (n : Nat) : chunksExact n ([] : List α) = [] := by
  rw [chunksExact]
  rw [dif_neg]
  intro h
  simp only [List.length_nil] at h
  omega

theorem chunksExact_append {α : Type} (n : Nat) (a b : List α) (hn : 0 < n)
    (ha : a.length = n) : chunksExact n (a ++ b) = a :: chunksExact n b := by
  rw [chunksExact]
  rw [dif_pos ⟨hn, by simp only [List.length_append]; omega⟩]
  congr 1
  · rw [List.take_append_of_le_length (by omega), ← ha, List.take_length]
  · congr 1
    rw [List.drop_append_of_le_length (by omega), ← ha, List.drop_length, List.nil_append]

/-- On a list whose length is an exact multiple of `n`, `chunks_exact` yields the `k`
consecutive `n`-element slices. -/
theorem chunksExact_of_length_mul {α : Type} (n : Nat) (hn : 0 < n) : ∀ (k : Nat) (l : List α),
    l.length = k * n →
    chunksExact n l = (List.range k).map (fun j => (l.drop (j * n)).take n) := by
  intro k
  induction k with
  | zero =>
    intro l hl
    have : l = [] := List.eq_nil_of_length_eq_zero (by simpa using hl)
    subst this
    simp [chunksExact_nil]
  | succ k ih =>
    intro l hl
    rw [Nat.succ_mul] at hl
    have h1 : (l.take n).length = n := by
      rw [List.length_take]
      omega
    have happ := chunksExact_append n (l.take n) (l.drop n) hn h1
    rw [List.take_append_drop] at happ
    rw [happ, ih (l.drop n) (by rw [List.length_drop]; omega)]
    rw [List.range_succ_eq_map, List.map_cons, List.map_map]
    congr 1
    · simp
    · apply List.map_congr_left
      intro j hj
      simp only [Function.comp_apply, List.drop_drop]
      have harith : n + j * n = Nat.succ j * n := by
        rw [Nat.succ_mul]
        omega
      rw [harith]

theorem chunksExact_replicate {α : Type} (n : Nat) (hn : 0 < n) (z : α) : ∀ k : Nat,
    chunksExact n (List.replicate (k * n) z) = List.replicate k (List.replicate n z) := by
  intro k
  induction k with
  | zero => simp [chunksExact_nil]
  | succ k ih =>
    have hsplit : List.replicate ((k + 1) * n) z =
        List.replicate n z ++ List.replicate (k * n) z := by
      rw [← List.replicate_add]
      congr 1
      rw [Nat.succ_mul]
      omega
    rw [hsplit, chunksExact_append n _ _ hn (by simp), ih, List.replicate_succ]

theorem zipWith_replicate_right {α β γ : Type} (f : β → α → γ) (c : α) :
    ∀ L : List β, List.zipWith f L (List.replicate L.length c) = L.map (fun x => f x c) := by
  intro L
  induction L with
  | nil => rfl
  | cons x xs ih =>
    simp only [List.length_cons, List.replicate_succ, List.zipWith_cons_cons, List.map_cons, ih]

/-- Overwriting a buffer with a list of exactly its length replaces it entirely. -/
theorem overwrite_full {α : Type} (base xs : List α) (h : base.length = xs.length) :
    overwrite base xs = xs := by
  rw [overwrite_eq, h, List.take_length, ← h, List.drop_length, List.append_nil]

theorem flatten_map_length {α β : Type} (f : β → List α) (m : Nat) : ∀ L : List β,
    (∀ x ∈ L, (f x).length = m) → ((L.map f).flatten).length = L.length * m := by
  intro L
  induction L with
  | nil => intro _; simp
  | cons x xs ih =>
    intro h
    simp only [List.map_cons, List.flatten_cons, List.length_append, List.length_cons]
    rw [h x (by simp), ih (fun y hy => h y (by simp [hy]))]
    ring

/-- Slice `j` of the flattened equal-length pieces is piece `j`. -/
theorem flatten_map_slice {α β : Type} (f : β → List α) (m : Nat) : ∀ (L : List β) (j : Nat)
    (_ : ∀ x ∈ L, (f x).length = m) (hj : j < L.length),
    (((L.map f).flatten).drop (j * m)).take m = f (L.get ⟨j, hj⟩) := by
  intro L
  induction L with
  | nil => intro j _ hj; simp at hj
  | cons x xs ih =>
    intro j h hj
    have hfx := h x (by simp)
    cases j with
    | zero =>
      simp only [List.map_cons, List.flatten_cons, Nat.zero_mul, List.drop_zero]
      rw [List.take_append_of_le_length (by omega), ← hfx, List.take_length]
      rfl
    | succ j =>
      simp only [List.map_cons, List.flatten_cons]
      have hdrop : (f x ++ (xs.map f).flatten).drop ((j + 1) * m) =
          ((xs.map f).flatten).drop (j * m) := by
        have harith : (j + 1) * m = (f x).length + j * m := by
          rw [hfx, Nat.succ_mul]
          omega
        rw [harith, List.drop_append]
      rw [hdrop, ih j (fun y hy => h y (by simp [hy])) (by simpa using hj)]
      rfl

theorem zipWith_replicate_right_of_length {α β γ : Type} (f : β → α → γ) (c : α) (n : Nat)
    (L : List β) (h : L.length = n) :
    List.zipWith f L (List.replicate n c) = L.map (fun x => f x c) := by
  subst h
  exact zipWith_replicate_right f c L

/-- C4: on any buffer of exactly the expected length (for a consistent geometry, as planned
ones are), decoding succeeds and produces exactly `n_chunks * chunk_size_samples` complex
samples, where the `j`-th run of `chunk_size_samples` output samples is the decode of the
first `chunk_size_samples * bytes_per_sample` bytes of the `j`-th
`blocks_per_chunk * BLOCK_SIZE`-byte region, read as consecutive little-endian `i32`
`(real, imag)` pairs in original order. -/
theorem decode_fid_partitions (g : FidGeometry) (bytes : List Nat)
    (hbps : g.bytes_per_sample = 8)
    (hcs : 0 < g.chunk_size_samples)
    (hbpc : 0 < g.blocks_per_chunk)
    (hfit : g.chunk_size_samples * 8 ≤ g.blocks_per_chunk * BLOCK_SIZE)
    (hexp : g.expected_fid_file_size_bytes = g.n_chunks * (g.blocks_per_chunk * BLOCK_SIZE))
    (htot : g.total_samples = g.n_chunks * g.chunk_size_samples)
    (hlen : bytes.length = g.expected_fid_file_size_bytes) :
    ∃ out, decode_fid g bytes = Except.ok out ∧
      out.length = g.n_chunks * g.chunk_size_samples ∧
      ∀ j, j < g.n_chunks →
        (out.drop (j * g.chunk_size_samples)).take g.chunk_size_samples =
          decodeChunk (g.chunk_size_samples * g.bytes_per_sample)
            ((bytes.drop (j * (g.blocks_per_chunk * BLOCK_SIZE))).take
              (g.blocks_per_chunk * BLOCK_SIZE)) := by
  have hm : 0 < g.blocks_per_chunk * BLOCK_SIZE :=
    Nat.mul_pos hbpc (by norm_num [BLOCK_SIZE])
  have hbytes_len : bytes.length = g.n_chunks * (g.blocks_per_chunk * BLOCK_SIZE) := by
    rw [hlen, hexp]
  have hbc := chunksExact_of_length_mul (g.blocks_per_chunk * BLOCK_SIZE) hm
    g.n_chunks bytes hbytes_len
  have hdata : chunksExact g.chunk_size_samples
      (List.replicate (g.n_chunks * g.chunk_size_samples) ((0 : Int), (0 : Int))) =
      List.replicate g.n_chunks (List.replicate g.chunk_size_samples ((0 : Int), (0 : Int))) :=
    chunksExact_replicate g.chunk_size_samples hcs _ g.n_chunks
  have hbf_len : ∀ j, j < g.n_chunks →
      ((bytes.drop (j * (g.blocks_per_chunk * BLOCK_SIZE))).take
        (g.blocks_per_chunk * BLOCK_SIZE)).length = g.blocks_per_chunk * BLOCK_SIZE := by
    intro j hj
    rw [List.length_take, List.length_drop, hbytes_len]
    have h1 : g.blocks_per_chunk * BLOCK_SIZE ≤
        (g.n_chunks - j) * (g.blocks_per_chunk * BLOCK_SIZE) :=
      Nat.le_mul_of_pos_left _ (by omega)
    rw [Nat.sub_mul] at h1
    omega
  have hdec_len : ∀ j, j < g.n_chunks →
      (decodeChunk (g.chunk_size_samples * 8)
        ((bytes.drop (j * (g.blocks_per_chunk * BLOCK_SIZE))).take
          (g.blocks_per_chunk * BLOCK_SIZE))).length = g.chunk_size_samples := by
    intro j hj
    apply decodeChunk_length
    rw [hbf_len j hj]
    exact hfit
  have hforall : ∀ j ∈ List.range g.n_chunks,
      (decodeChunk (g.chunk_size_samples * 8)
        ((bytes.drop (j * (g.blocks_per_chunk * BLOCK_SIZE))).take
          (g.blocks_per_chunk * BLOCK_SIZE))).length = g.chunk_size_samples :=
    fun j hj => hdec_len j (List.mem_range.mp hj)
  have hwritten : List.zipWith (fun region dst =>
        overwrite dst (decodeChunk (g.chunk_size_samples * 8) region))
      ((List.range g.n_chunks).map (fun j =>
        (bytes.drop (j * (g.blocks_per_chunk * BLOCK_SIZE))).take
          (g.blocks_per_chunk * BLOCK_SIZE)))
      (List.replicate g.n_chunks
        (List.replicate g.chunk_size_samples ((0 : Int), (0 : Int)))) =
      (List.range g.n_chunks).map (fun j =>
        decodeChunk (g.chunk_size_samples * 8)
          ((bytes.drop (j * (g.blocks_per_chunk * BLOCK_SIZE))).take
            (g.blocks_per_chunk * BLOCK_SIZE))) := by
    rw [zipWith_replicate_right_of_length _ _ _ _ (by simp), List.map_map]
    apply List.map_congr_left
    intro j hj
    simp only [Function.comp_apply]
    apply overwrite_full
    rw [List.length_replicate, hdec_len j (List.mem_range.mp hj)]
  refine ⟨((List.range g.n_chunks).map (fun j =>
      decodeChunk (g.chunk_size_samples * 8)
        ((bytes.drop (j * (g.blocks_per_chunk * BLOCK_SIZE))).take
          (g.blocks_per_chunk * BLOCK_SIZE)))).flatten, ?_, ?_, ?_⟩
  · unfold decode_fid
    rw [if_pos hlen]
    simp only [hbps, htot, hbc, hdata, hwritten, List.length_map, List.length_range,
      List.length_replicate, drop_replicate, Nat.sub_self, List.replicate_zero,
      List.flatten_nil, List.append_nil]
  · rw [flatten_map_length _ g.chunk_size_samples _ hforall, List.length_range]
  · intro j hj
    have hj2 : j < (List.range g.n_chunks).length := by simpa using hj
    rw [hbps, flatten_map_slice _ g.chunk_size_samples _ j hforall hj2]
    simp [List.get_eq_getElem, List.getElem_range]

/-- Witness for C4 at the worked example geometry and an all-zero buffer of exactly
32768 bytes. -/
theorem decode_fid_partitions_w :
    ∃ out, decode_fid ⟨8, 128, 4096, 32, 128, 1, 4096, 32768⟩ (List.replicate 32768 0) =
        Except.ok out ∧
      out.length = 32 * 128 ∧
      ∀ j, j < 32 →
        (out.drop (j * 128)).take 128 =
          decodeChunk (128 * 8)
            (((List.replicate 32768 0).drop (j * (1 * BLOCK_SIZE))).take (1 * BLOCK_SIZE)) :=
  decode_fid_partitions ⟨8, 128, 4096, 32, 128, 1, 4096, 32768⟩ (List.replicate 32768 0)
    rfl (by norm_num) (by norm_num) (by norm_num [BLOCK_SIZE]) (by norm_num [BLOCK_SIZE])
    (by norm_num) (by rw [List.length_replicate])

end ArrayLib
